import Mathlib

/-!
Shallow embedding of the core pipeline of `bot.py` (a messaging-bot
front end around a media downloader): format catalog building
(`fetch_formats`), the URL handler that renders the interactive choice
(`handle_url`), the callback handler that downloads and delivers the
chosen encoding (`download_and_upload`), and the chunked delivery of
oversized artifacts (`split_and_upload`).

Strings are modelled as lists of characters (`Str`), file contents as
lists of bytes (`List Nat`).  The effectful handlers are modelled as
pure functions producing a trace of externally visible events, together
with oracles that say which collaborator calls succeed; the local
filesystem state is recovered by folding the trace.
-/

set_option maxHeartbeats 1000000

abbrev Str := List Char

/-- Transport payload ceiling: `TELEGRAM_FILE_LIMIT = 2 * 1024 * 1024 * 1024`. -/
def TELEGRAM_FILE_LIMIT : Nat := 2 * 1024 * 1024 * 1024

/-- Python `s.split(d)` (separator given, no maxsplit) on character lists:
always returns at least one (possibly empty) group. -/
def splitOnChar (d : Char) : Str → List Str
  | [] => [[]]
  | c :: cs =>
    match splitOnChar d cs with
    | [] => [[]]
    | g :: gs => if c = d then [] :: g :: gs else (c :: g) :: gs

/-! ### Format catalog building (`fetch_formats`, bot.py lines 36-52) -/

/-- One entry of the `formats` list returned by the resolution engine.
`none` models an absent dictionary key. -/
structure RawFormat where
  format_id : Option Str
  height : Option Nat
  ext : Option Str
  filesize : Option Nat
deriving DecidableEq

/-- One entry of the produced catalog:
`{"format_id": ..., "resolution": ..., "ext": ...}`. -/
structure Candidate where
  format_id : Str
  resolution : Str
  ext : Str
deriving DecidableEq

/-- `f"{f.get('height', 'Audio')}p" if f.get("height") else "Audio"`:
Python truthiness makes both a missing height and a zero height fall to
`"Audio"`. -/
def resolutionLabel : Option Nat → Str
  | some h => if h = 0 then "Audio".toList else (Nat.toDigits 10 h) ++ ['p']
  | none => "Audio".toList

/-- The size filter of the comprehension:
`f.get("filesize", 0) <= TELEGRAM_FILE_LIMIT` (a missing size defaults
to `0` and passes). -/
def sizeOk (f : RawFormat) : Bool :=
  f.filesize.getD 0 ≤ TELEGRAM_FILE_LIMIT

/-- The element expression of the comprehension: `f["format_id"]` and
`f["ext"]` raise `KeyError` (modelled as `none`) when the key is absent. -/
def buildCandidate (f : RawFormat) : Option Candidate :=
  match f.format_id, f.ext with
  | some fid, some e => some ⟨fid, resolutionLabel f.height, e⟩
  | _, _ => none

/-- The list comprehension of `fetch_formats`: entries failing the size
filter are skipped before their keys are read; a retained entry with a
missing key raises, which the surrounding `except` turns into `None`. -/
def buildCatalog : List RawFormat → Option (List Candidate)
  | [] => some []
  | f :: fs =>
    if sizeOk f then
      (buildCandidate f).bind (fun c => (buildCatalog fs).map (c :: ·))
    else buildCatalog fs

/-- `fetch_formats`: `none` input models `extract_info` raising (bad URL
or network failure); any exception yields `None`. -/
def fetch_formats (res : Option (List RawFormat)) : Option (List Candidate) :=
  res.bind buildCatalog

/-! ### Selection tokens (bot.py lines 85, 88, 98) -/

/-- `callback_data=f"{url}|{format_id}"`. -/
def encodeToken (url fid : Str) : Str := url ++ '|' :: fid

/-- `url, format_id = query.data.split("|")`: Python tuple unpacking
succeeds only when the split yields exactly two fields. -/
def parseSel (payload : Str) : Option (Str × Str) :=
  match splitOnChar '|' payload with
  | [u, f] => some (u, f)
  | _ => none

/-! ### Working filename (bot.py line 101) -/

/-- `output_file = f"{url.split('=')[-1]}_{format_id}.mp4"`. -/
def output_file (url fid : Str) : Str :=
  (splitOnChar '=' url).getLastD [] ++ '_' :: fid ++ ".mp4".toList

/-- Independent rendering of the claimed filename stem: the substring of
the URL strictly after its last occurrence of the character `=`. -/
def afterLastEq (url : Str) : Str :=
  (url.reverse.takeWhile (fun c => c ≠ '=')).reverse

/-! ### Chunking (`f.read(TELEGRAM_FILE_LIMIT)` loop, bot.py lines 131-132) -/

/-- The sequence of blocks produced by repeatedly calling
`f.read(TELEGRAM_FILE_LIMIT)` on a file holding `bs` until it returns
an empty read. -/
def readChunks (bs : List Nat) : List (List Nat) :=
  if h : bs = [] then []
  else bs.take TELEGRAM_FILE_LIMIT :: readChunks (bs.drop TELEGRAM_FILE_LIMIT)
termination_by bs.length
decreasing_by
  simp only [List.length_drop]
  have h1 : 0 < bs.length := List.length_pos.mpr h
  have h2 : 0 < TELEGRAM_FILE_LIMIT := by decide
  omega

/-! ### Event traces of the handlers -/

/-- Externally visible actions of the callback handler, in program
order.  `download f` is a successful `ydl.download` materialising file
`f`; send events are recorded only when the transport call succeeds. -/
inductive Event where
  | answer
  | editMsg (t : Str)
  | sendVideo (file : Str) (caption : Str)
  | sendDoc (file : Str) (caption : Str)
  | download (file : Str)
  | writeF (file : Str)
  | removeF (file : Str)
deriving DecidableEq

/-- Which collaborator calls succeed during one callback invocation. -/
structure Oracle where
  downloadOk : Bool
  videoOk : Bool
  docOk : Nat → Bool

inductive Outcome where
  | ok
  | handled
  | uncaught
deriving DecidableEq

/-- Result of one `download_and_upload` invocation: the event trace, how
the handler exited (`uncaught` = an exception escaped the `try` block),
and whether retrieval (the `ydl.download` call) was attempted. -/
structure Exec where
  events : List Event
  outcome : Outcome
  attempted : Bool
deriving DecidableEq

def downloadingMsg : Str := "⏳ Downloading your video... Please wait.".toList
def splittingMsg : Str := "📦 File too large! Splitting into smaller parts...".toList
def failMsg : Str := "❌ Failed to download or upload the video.".toList
def videoCaption : Str := "🎬 Here is your video!".toList
def fetchingMsg : Str := "🔄 Fetching available formats...".toList
def couldNotFetchMsg : Str := "❌ Could not fetch formats. Please check the URL.".toList
def choosePrompt : Str := "🎥 Choose your desired format:".toList

/-- `part_filename = f"{file_path}.part{part_number}"`. -/
def partName (fp : Str) (n : Nat) : Str := fp ++ ".part".toList ++ Nat.toDigits 10 n

/-- `caption=f"📦 Part {part_number} of the video."`. -/
def partCaption (n : Nat) : Str :=
  "📦 Part ".toList ++ Nat.toDigits 10 n ++ " of the video.".toList

/-- The loop body of `split_and_upload`, one iteration per block read:
write the part file, deliver it, remove it.  A failed `reply_document`
raises, aborting the loop with the part file still on disk (second
component `false`). -/
def splitGo (fp : Str) (docOk : Nat → Bool) : Nat → List (List Nat) → List Event × Bool
  | _, [] => ([], true)
  | n, _ :: rest =>
    let pn := partName fp n
    if docOk n then
      let r := splitGo fp docOk (n + 1) rest
      (Event.writeF pn :: Event.sendDoc pn (partCaption n) :: Event.removeF pn :: r.1, r.2)
    else
      ([Event.writeF pn], false)

/-- `split_and_upload(file_path, query)` on a file holding `bs`. -/
def split_and_upload (fp : Str) (docOk : Nat → Bool) (bs : List Nat) : List Event × Bool :=
  splitGo fp docOk 1 (readChunks bs)

/-- `download_and_upload` (bot.py lines 95-125) on callback payload
`payload`, where a successful download materialises `artifact` bytes.
The `query.data.split("|")` unpacking happens before the `try` block, so
a payload that does not split into exactly two fields raises an uncaught
`ValueError` after the callback has been answered. -/
def download_and_upload (payload : Str) (artifact : List Nat) (o : Oracle) : Exec :=
  match parseSel payload with
  | none => ⟨[Event.answer], Outcome.uncaught, false⟩
  | some (url, fid) =>
    let ofile := output_file url fid
    if o.downloadOk then
      if artifact.length > TELEGRAM_FILE_LIMIT then
        let r := split_and_upload ofile o.docOk artifact
        if r.2 then
          ⟨[Event.answer, Event.editMsg downloadingMsg, Event.download ofile,
            Event.editMsg splittingMsg] ++ r.1 ++ [Event.removeF ofile],
           Outcome.ok, true⟩
        else
          ⟨[Event.answer, Event.editMsg downloadingMsg, Event.download ofile,
            Event.editMsg splittingMsg] ++ r.1 ++ [Event.editMsg failMsg],
           Outcome.handled, true⟩
      else
        if o.videoOk then
          ⟨[Event.answer, Event.editMsg downloadingMsg, Event.download ofile,
            Event.sendVideo ofile videoCaption, Event.removeF ofile],
           Outcome.ok, true⟩
        else
          ⟨[Event.answer, Event.editMsg downloadingMsg, Event.download ofile,
            Event.editMsg failMsg],
           Outcome.handled, true⟩
    else
      ⟨[Event.answer, Event.editMsg downloadingMsg, Event.editMsg failMsg],
       Outcome.handled, true⟩

/-! ### Filesystem state derived from a trace -/

/-- Effect of one event on the list of files present on local storage. -/
def applyEvent (fs : List Str) : Event → List Str
  | Event.download f => fs ++ [f]
  | Event.writeF f => fs ++ [f]
  | Event.removeF f => fs.filter (fun x => x ≠ f)
  | _ => fs

/-- Files on local storage after a trace, starting from empty storage. -/
def filesAfter (evs : List Event) : List Str :=
  evs.foldl applyEvent []

/-- Every intermediate storage state along a trace (including the
initial and final ones). -/
def allStates (fs : List Str) : List Event → List (List Str)
  | [] => [fs]
  | e :: evs => fs :: allStates (applyEvent fs e) evs

def isEditMsg : Event → Bool
  | Event.editMsg _ => true
  | _ => false

/-- The three events of one successful loop iteration of
`split_and_upload` for part number `n`: write the part file, deliver it
as a labeled document, remove it. -/
def tripleEvents (fp : Str) (n : Nat) : List Event :=
  [Event.writeF (partName fp n),
   Event.sendDoc (partName fp n) (partCaption n),
   Event.removeF (partName fp n)]

/-- Number of files in storage state `s` other than the artifact `fp`
(i.e. the number of ChunkPart files present). -/
def countOther (fp : Str) (s : List Str) : Nat :=
  s.countP (fun x => x ≠ fp)

/-! ### URL handler (`handle_url`, bot.py lines 76-91) -/

/-- Outbound messages of the URL handler: plain text replies and the
interactive choice keyboard (button label, callback data). -/
inductive OutMsg where
  | text (t : Str)
  | choice (prompt : Str) (buttons : List (Str × Str))
deriving DecidableEq

def isChoiceMsg : OutMsg → Bool
  | OutMsg.choice _ _ => true
  | _ => false

/-- `handle_url` on a stripped message text `url`, where `res` is what
the resolution engine produced (`none` = it raised). -/
def handle_url (url : Str) (res : Option (List RawFormat)) : List OutMsg :=
  match fetch_formats res with
  | none => [OutMsg.text fetchingMsg, OutMsg.text couldNotFetchMsg]
  | some [] => [OutMsg.text fetchingMsg, OutMsg.text couldNotFetchMsg]
  | some cands =>
    [OutMsg.text fetchingMsg,
     OutMsg.choice choosePrompt
       ((cands.map (fun c =>
          (c.resolution ++ " - ".toList ++ c.ext, encodeToken url c.format_id)))
        ++ [("🔊 Audio Only".toList, encodeToken url "bestaudio".toList)])]

/-! ### Lemmas: splitting on a character -/

theorem splitOnChar_cons (d c : Char) (cs : Str) :
    splitOnChar d (c :: cs) =
      match splitOnChar d cs with
      | [] => [[]]
      | g :: gs => if c = d then [] :: g :: gs else (c :: g) :: gs := rfl

theorem splitOnChar_ne_nil (d : Char) (s : Str) : splitOnChar d s ≠ [] := by
  cases s with
  | nil => simp [splitOnChar]
  | cons c cs =>
    rw [splitOnChar_cons]
    rcases h : splitOnChar d cs with _ | ⟨g, gs⟩
    · simp
    · by_cases hc : c = d <;> simp [hc]

theorem splitOnChar_of_not_mem {d : Char} {s : Str} (h : d ∉ s) :
    splitOnChar d s = [s] := by
  induction s with
  | nil => rfl
  | cons c cs ih =>
    have hc : c ≠ d := fun hcd => h (hcd ▸ List.mem_cons_self c cs)
    have hcs : d ∉ cs := fun hm => h (List.mem_cons_of_mem c hm)
    rw [splitOnChar_cons, ih hcs]
    dsimp only
    rw [if_neg hc]

theorem splitOnChar_singleton {d : Char} {s g : Str} (h : splitOnChar d s = [g]) :
    g = s ∧ d ∉ s := by
  induction s generalizing g with
  | nil =>
    have hg : g = [] := by simpa [splitOnChar] using h.symm
    simp [hg]
  | cons c cs ih =>
    rw [splitOnChar_cons] at h
    rcases hs : splitOnChar d cs with _ | ⟨g', gs'⟩
    · exact absurd hs (splitOnChar_ne_nil d cs)
    · rw [hs] at h
      dsimp only at h
      by_cases hc : c = d
      · rw [if_pos hc] at h
        exact absurd (congrArg List.length h) (by simp)
      · rw [if_neg hc] at h
        have h1 : c :: g' = g := (List.cons.injEq _ _ _ _ ▸ h).1
        have h2 : gs' = [] := (List.cons.injEq _ _ _ _ ▸ h).2
        obtain ⟨hg, hmem⟩ := ih (hs.trans (by rw [h2]))
        refine ⟨by rw [← h1, hg], fun hm => ?_⟩
        rcases List.mem_cons.mp hm with hm | hm
        · exact hc hm.symm
        · exact hmem hm

theorem splitOnChar_append_delim {d : Char} {u : Str} (t : Str) (h : d ∉ u) :
    splitOnChar d (u ++ d :: t) = u :: splitOnChar d t := by
  induction u with
  | nil =>
    rw [List.nil_append, splitOnChar_cons]
    rcases ht : splitOnChar d t with _ | ⟨g, gs⟩
    · exact absurd ht (splitOnChar_ne_nil d t)
    · dsimp only
      rw [if_pos rfl]
  | cons c cs ih =>
    have hc : c ≠ d := fun hcd => h (hcd ▸ List.mem_cons_self c cs)
    have hcs : d ∉ cs := fun hm => h (List.mem_cons_of_mem c hm)
    rw [List.cons_append, splitOnChar_cons, ih hcs]
    dsimp only
    rw [if_neg hc]

/-! ### Lemmas: takeWhile and the last group of a split -/

theorem takeWhile_eq_self_of_all {α : Type} {p : α → Bool} {xs : List α}
    (h : ∀ x ∈ xs, p x = true) : xs.takeWhile p = xs := by
  induction xs with
  | nil => rfl
  | cons x xs ih =>
    have hx := h x (List.mem_cons_self x xs)
    have hrest := ih fun y hy => h y (List.mem_cons_of_mem x hy)
    simp [List.takeWhile_cons, hx, hrest]

theorem takeWhile_append_false {α : Type} {p : α → Bool} {c : α}
    (hc : p c = false) (xs : List α) :
    (xs ++ [c]).takeWhile p = xs.takeWhile p := by
  induction xs with
  | nil => simp [List.takeWhile_cons, hc]
  | cons x xs ih =>
    rw [List.cons_append, List.takeWhile_cons, List.takeWhile_cons]
    cases hx : p x
    · rfl
    · rw [ih]

theorem takeWhile_append_of_not_all {α : Type} {p : α → Bool} {xs : List α}
    (h : ¬ ∀ x ∈ xs, p x = true) (ys : List α) :
    (xs ++ ys).takeWhile p = xs.takeWhile p := by
  induction xs with
  | nil => exact absurd (by simp) h
  | cons x xs ih =>
    rw [List.cons_append, List.takeWhile_cons, List.takeWhile_cons]
    by_cases hx : p x = true
    · rw [hx]
      have h' : ¬ ∀ y ∈ xs, p y = true := by
        intro hall
        exact h fun y hy => by
          rcases List.mem_cons.mp hy with hy | hy
          · rw [hy]; exact hx
          · exact hall y hy
      rw [ih h']
    · rw [Bool.not_eq_true] at hx
      simp [hx]

theorem getLastD_splitOnChar (d : Char) (s : Str) :
    (splitOnChar d s).getLastD [] =
      (s.reverse.takeWhile (fun c => c ≠ d)).reverse := by
  induction s with
  | nil => rfl
  | cons c cs ih =>
    rw [splitOnChar_cons]
    rcases hs : splitOnChar d cs with _ | ⟨g, gs⟩
    · exact absurd hs (splitOnChar_ne_nil d cs)
    · rw [hs] at ih
      dsimp only
      rw [List.reverse_cons]
      by_cases hc : c = d
      · rw [if_pos hc]
        have hpc : (fun x : Char => decide (x ≠ d)) c = false := by simp [hc]
        rw [@takeWhile_append_false Char (fun x : Char => decide (x ≠ d)) c hpc cs.reverse,
          ← ih]
        simp [List.getLastD_cons]
      · rw [if_neg hc]
        cases gs with
        | nil =>
          obtain ⟨hg, hmem⟩ := splitOnChar_singleton hs
          have hall : ∀ x ∈ cs.reverse ++ [c], (fun x : Char => decide (x ≠ d)) x = true := by
            intro x hx
            rcases List.mem_append.mp hx with hx | hx
            · have hxc : x ∈ cs := List.mem_reverse.mp hx
              simp only [decide_eq_true_eq]
              exact fun hxd => hmem (hxd ▸ hxc)
            · have hxc : x = c := by simpa using hx
              simp [hxc, hc]
          rw [@takeWhile_eq_self_of_all Char (fun x : Char => decide (x ≠ d)) _ hall]
          simp [List.getLastD_cons, hg, List.reverse_append]
        | cons g2 gs2 =>
          have hd : d ∈ cs := by
            by_contra hnd
            rw [splitOnChar_of_not_mem hnd] at hs
            simpa using congrArg List.length hs
          have hnotall : ¬ ∀ x ∈ cs.reverse, (fun x : Char => decide (x ≠ d)) x = true := by
            intro hall
            have := hall d (List.mem_reverse.mpr hd)
            simp at this
          rw [@takeWhile_append_of_not_all Char (fun x : Char => decide (x ≠ d)) _ hnotall [c],
            ← ih]
          simp [List.getLastD_cons]

theorem output_file_eq_afterLastEq (url fid : Str) :
    output_file url fid = afterLastEq url ++ '_' :: fid ++ ".mp4".toList := by
  unfold output_file afterLastEq
  rw [getLastD_splitOnChar]

theorem afterLastEq_of_not_mem {url : Str} (h : '=' ∉ url) :
    afterLastEq url = url := by
  unfold afterLastEq
  have hall : ∀ x ∈ url.reverse, (fun c : Char => decide (c ≠ '=')) x = true := by
    intro x hx
    simp only [decide_eq_true_eq]
    exact fun hxd => h (hxd ▸ List.mem_reverse.mp hx)
  rw [@takeWhile_eq_self_of_all Char (fun c : Char => decide (c ≠ '=')) _ hall,
    List.reverse_reverse]

theorem parseSel_encodeToken {url fid : Str} (hu : '|' ∉ url) (hf : '|' ∉ fid) :
    parseSel (encodeToken url fid) = some (url, fid) := by
  unfold parseSel encodeToken
  rw [splitOnChar_append_delim fid hu, splitOnChar_of_not_mem hf]

/-! ### Lemmas: chunking -/

theorem readChunks_nil : readChunks [] = [] := by
  rw [readChunks, dif_pos rfl]

theorem readChunks_eq_cons {bs : List Nat} (h : bs ≠ []) :
    readChunks bs =
      bs.take TELEGRAM_FILE_LIMIT :: readChunks (bs.drop TELEGRAM_FILE_LIMIT) := by
  rw [readChunks, dif_neg h]

theorem flatten_readChunks (bs : List Nat) : (readChunks bs).flatten = bs := by
  induction bs using readChunks.induct with
  | case1 => rw [readChunks_nil]; rfl
  | case2 bs hb ih =>
    rw [readChunks_eq_cons hb, List.flatten_cons, ih, List.take_append_drop]

theorem length_readChunks (bs : List Nat) :
    (readChunks bs).length =
      (bs.length + TELEGRAM_FILE_LIMIT - 1) / TELEGRAM_FILE_LIMIT := by
  induction bs using readChunks.induct with
  | case1 => rw [readChunks_nil]; simp [TELEGRAM_FILE_LIMIT]
  | case2 bs hb ih =>
    rw [readChunks_eq_cons hb, List.length_cons, ih]
    have hpos : 0 < bs.length := List.length_pos.mpr hb
    simp only [List.length_drop]
    generalize bs.length = n at hpos ⊢
    unfold TELEGRAM_FILE_LIMIT
    omega

theorem mem_readChunks {bs ch : List Nat} (h : ch ∈ readChunks bs) :
    0 < ch.length ∧ ch.length ≤ TELEGRAM_FILE_LIMIT := by
  induction bs using readChunks.induct with
  | case1 => rw [readChunks_nil] at h; simp at h
  | case2 bs hb ih =>
    rw [readChunks_eq_cons hb] at h
    rcases List.mem_cons.mp h with h | h
    · subst h
      constructor
      · simp only [List.length_take]
        have hpos : 0 < bs.length := List.length_pos.mpr hb
        have hL : 0 < TELEGRAM_FILE_LIMIT := by decide
        omega
      · simp only [List.length_take]
        omega
    · exact ih h

theorem dropLast_readChunks {bs ch : List Nat} (h : ch ∈ (readChunks bs).dropLast) :
    ch.length = TELEGRAM_FILE_LIMIT := by
  induction bs using readChunks.induct with
  | case1 => rw [readChunks_nil] at h; simp at h
  | case2 bs hb ih =>
    rw [readChunks_eq_cons hb] at h
    by_cases hd : bs.drop TELEGRAM_FILE_LIMIT = []
    · rw [hd, readChunks_nil] at h
      simp at h
    · have hne : readChunks (bs.drop TELEGRAM_FILE_LIMIT) ≠ [] := by
        rw [readChunks_eq_cons hd]
        simp
      rcases hr : readChunks (bs.drop TELEGRAM_FILE_LIMIT) with _ | ⟨c2, cs2⟩
      · exact absurd hr hne
      · rw [hr] at h
        rw [List.dropLast_cons₂] at h
        rcases List.mem_cons.mp h with h | h
        · subst h
          simp only [List.length_take]
          have : TELEGRAM_FILE_LIMIT < bs.length := by
            by_contra hle
            push_neg at hle
            exact hd (List.drop_eq_nil_of_le hle)
          omega
        · rw [hr] at ih
          exact ih (hr ▸ h)

/-! ### Lemmas: the chunk delivery loop -/

theorem partName_ne (fp : Str) (n : Nat) : partName fp n ≠ fp := by
  intro h
  have hl := congrArg List.length h
  rw [partName] at hl
  simp only [List.length_append] at hl
  have h5 : (".part".toList).length = 5 := rfl
  omega

theorem allStates_cons (fs : List Str) (e : Event) (evs : List Event) :
    allStates fs (e :: evs) = fs :: allStates (applyEvent fs e) evs := rfl

theorem applyEvent_remove_part (fp : Str) (n : Nat) :
    applyEvent [fp, partName fp n] (Event.removeF (partName fp n)) = [fp] := by
  have hne : fp ≠ partName fp n := (partName_ne fp n).symm
  simp [applyEvent, hne]

theorem splitGo_of_ok {docOk : Nat → Bool} (fp : Str) :
    ∀ (chunks : List (List Nat)) (n : Nat),
      (splitGo fp docOk n chunks).2 = true →
      List.foldl applyEvent [fp] (splitGo fp docOk n chunks).1 = [fp] := by
  intro chunks
  induction chunks with
  | nil => intro n _; rfl
  | cons c rest ih =>
    intro n h
    by_cases hd : docOk n = true
    · simp only [splitGo, hd, if_true] at h ⊢
      rw [List.foldl_cons, List.foldl_cons, List.foldl_cons]
      have h1 : applyEvent [fp] (Event.writeF (partName fp n)) = [fp, partName fp n] := rfl
      have h2 : applyEvent [fp, partName fp n]
          (Event.sendDoc (partName fp n) (partCaption n)) = [fp, partName fp n] := rfl
      rw [h1, h2, applyEvent_remove_part]
      exact ih (n + 1) h
    · simp only [splitGo, hd, if_false] at h
      exact absurd h (by simp)

theorem splitGo_all_ok {docOk : Nat → Bool} (hall : ∀ m, docOk m = true) (fp : Str) :
    ∀ (chunks : List (List Nat)) (n : Nat),
      splitGo fp docOk n chunks =
        (((List.range chunks.length).map (fun i => tripleEvents fp (n + i))).flatten,
         true) := by
  intro chunks
  induction chunks with
  | nil => intro n; simp [splitGo]
  | cons c rest ih =>
    intro n
    simp only [splitGo, hall n, if_true, ih (n + 1)]
    rw [List.length_cons, List.range_succ_eq_map]
    simp only [List.map_cons, List.map_map, List.flatten_cons]
    have hfun : (List.range rest.length).map ((fun i => tripleEvents fp (n + i)) ∘ Nat.succ)
        = (List.range rest.length).map (fun i => tripleEvents fp ((n + 1) + i)) := by
      apply List.map_congr_left
      intro i _
      simp only [Function.comp_apply]
      rw [Nat.succ_eq_add_one, Nat.add_comm i 1, ← Nat.add_assoc]
    rw [hfun, Nat.add_zero]
    rfl

theorem splitGo_states {docOk : Nat → Bool} (fp : Str) :
    ∀ (chunks : List (List Nat)) (n : Nat) (s : List Str),
      s ∈ allStates [fp] (splitGo fp docOk n chunks).1 →
      countOther fp s ≤ 1 := by
  intro chunks
  induction chunks with
  | nil =>
    intro n s hs
    simp only [splitGo, allStates, List.mem_singleton] at hs
    subst hs
    simp [countOther]
  | cons c rest ih =>
    intro n s hs
    have c0 : countOther fp [fp] ≤ 1 := by simp [countOther]
    have c1 : countOther fp [fp, partName fp n] ≤ 1 := by
      simp [countOther, List.countP_cons, partName_ne fp n]
    by_cases hd : docOk n = true
    · simp only [splitGo, hd, if_true] at hs
      rw [allStates_cons] at hs
      have h1 : applyEvent [fp] (Event.writeF (partName fp n)) = [fp, partName fp n] := rfl
      rw [h1, allStates_cons] at hs
      have h2 : applyEvent [fp, partName fp n]
          (Event.sendDoc (partName fp n) (partCaption n)) = [fp, partName fp n] := rfl
      rw [h2, allStates_cons, applyEvent_remove_part] at hs
      rcases List.mem_cons.mp hs with hs | hs
      · subst hs; exact c0
      rcases List.mem_cons.mp hs with hs | hs
      · subst hs; exact c1
      rcases List.mem_cons.mp hs with hs | hs
      · subst hs; exact c1
      · exact ih (n + 1) s hs
    · simp only [splitGo, hd] at hs
      rw [if_neg (by simp)] at hs
      rw [allStates_cons] at hs
      have h1 : applyEvent [fp] (Event.writeF (partName fp n)) = [fp, partName fp n] := rfl
      rw [h1] at hs
      rcases List.mem_cons.mp hs with hs | hs
      · subst hs; exact c0
      · simp only [allStates, List.mem_singleton] at hs
        subst hs; exact c1

/-! ### Lemmas: catalog building -/

theorem buildCatalog_cons_pos {f : RawFormat} {fs : List RawFormat}
    (hsz : sizeOk f = true) :
    buildCatalog (f :: fs) = (buildCandidate f).bind (fun c => (buildCatalog fs).map (c :: ·)) := by
  simp [buildCatalog, hsz]

theorem buildCatalog_cons_neg {f : RawFormat} {fs : List RawFormat}
    (hsz : ¬ sizeOk f = true) :
    buildCatalog (f :: fs) = buildCatalog fs := by
  simp [buildCatalog, hsz]

theorem buildCandidate_eq_none {f : RawFormat}
    (h : f.format_id = none ∨ f.ext = none) : buildCandidate f = none := by
  unfold buildCandidate
  rcases h with h | h
  · rw [h]
  · rw [h]
    cases f.format_id <;> rfl

theorem buildCatalog_sound {fs : List RawFormat} :
    ∀ {cat : List Candidate}, buildCatalog fs = some cat →
    ∀ c ∈ cat, ∃ f, f ∈ fs ∧ sizeOk f = true ∧ buildCandidate f = some c := by
  induction fs with
  | nil =>
    intro cat h c hc
    simp only [buildCatalog, Option.some.injEq] at h
    subst h
    simp at hc
  | cons f fs ih =>
    intro cat h c hc
    by_cases hsz : sizeOk f = true
    · rw [buildCatalog_cons_pos hsz] at h
      rcases Option.bind_eq_some.mp h with ⟨c0, hc0, hmap⟩
      rcases Option.map_eq_some'.mp hmap with ⟨cat0, hcat0, hcat⟩
      subst hcat
      rcases List.mem_cons.mp hc with hc | hc
      · exact ⟨f, List.mem_cons_self f fs, hsz, hc ▸ hc0⟩
      · rcases ih hcat0 c hc with ⟨g, hg, hgsz, hgc⟩
        exact ⟨g, List.mem_cons_of_mem f hg, hgsz, hgc⟩
    · rw [buildCatalog_cons_neg hsz] at h
      rcases ih h c hc with ⟨g, hg, hgsz, hgc⟩
      exact ⟨g, List.mem_cons_of_mem f hg, hgsz, hgc⟩

theorem buildCatalog_complete {fs : List RawFormat} :
    ∀ {cat : List Candidate}, buildCatalog fs = some cat →
    ∀ f ∈ fs, sizeOk f = true → ∀ c, buildCandidate f = some c → c ∈ cat := by
  induction fs with
  | nil => intro cat _ f hf; simp at hf
  | cons g fs ih =>
    intro cat h f hf hsz c hc
    by_cases hgsz : sizeOk g = true
    · rw [buildCatalog_cons_pos hgsz] at h
      rcases Option.bind_eq_some.mp h with ⟨c0, hc0, hmap⟩
      rcases Option.map_eq_some'.mp hmap with ⟨cat0, hcat0, hcat⟩
      subst hcat
      rcases List.mem_cons.mp hf with hf | hf
      · subst hf
        rw [hc] at hc0
        exact (Option.some.injEq _ _ ▸ hc0) ▸ List.mem_cons_self c0 cat0
      · exact List.mem_cons_of_mem c0 (ih hcat0 f hf hsz c hc)
    · rw [buildCatalog_cons_neg hgsz] at h
      rcases List.mem_cons.mp hf with hf | hf
      · subst hf; exact absurd hsz hgsz
      · exact ih h f hf hsz c hc

theorem buildCatalog_none_of_missing {fs : List RawFormat} {f : RawFormat}
    (hf : f ∈ fs) (hsz : sizeOk f = true)
    (hm : f.format_id = none ∨ f.ext = none) :
    buildCatalog fs = none := by
  induction fs with
  | nil => simp at hf
  | cons g fs ih =>
    rcases List.mem_cons.mp hf with hf | hf
    · subst hf
      rw [buildCatalog_cons_pos hsz, buildCandidate_eq_none hm]
      rfl
    · by_cases hgsz : sizeOk g = true
      · rw [buildCatalog_cons_pos hgsz, ih hf]
        cases buildCandidate g <;> rfl
      · rw [buildCatalog_cons_neg hgsz]
        exact ih hf

/-! ### Lemmas: the URL handler -/

theorem handle_url_no_formats {url : Str} {res : Option (List RawFormat)}
    (h : fetch_formats res = none ∨ fetch_formats res = some []) :
    handle_url url res = [OutMsg.text fetchingMsg, OutMsg.text couldNotFetchMsg] := by
  unfold handle_url
  rcases h with h | h <;> rw [h]

/-! ### Lemmas: the callback handler, branch by branch -/

theorem dau_malformed {payload : Str} {artifact : List Nat} {o : Oracle}
    (h : parseSel payload = none) :
    download_and_upload payload artifact o = ⟨[Event.answer], Outcome.uncaught, false⟩ := by
  unfold download_and_upload
  rw [h]

theorem dau_no_download {payload url fid : Str} {artifact : List Nat} {o : Oracle}
    (h : parseSel payload = some (url, fid)) (hd : o.downloadOk = false) :
    download_and_upload payload artifact o =
      ⟨[Event.answer, Event.editMsg downloadingMsg, Event.editMsg failMsg],
       Outcome.handled, true⟩ := by
  unfold download_and_upload
  rw [h]
  dsimp only
  rw [hd, if_neg (by simp)]

theorem dau_small_ok {payload url fid : Str} {artifact : List Nat} {o : Oracle}
    (h : parseSel payload = some (url, fid)) (hd : o.downloadOk = true)
    (hsz : ¬ artifact.length > TELEGRAM_FILE_LIMIT) (hv : o.videoOk = true) :
    download_and_upload payload artifact o =
      ⟨[Event.answer, Event.editMsg downloadingMsg,
        Event.download (output_file url fid),
        Event.sendVideo (output_file url fid) videoCaption,
        Event.removeF (output_file url fid)],
       Outcome.ok, true⟩ := by
  unfold download_and_upload
  rw [h]
  dsimp only
  rw [hd, if_pos rfl, if_neg hsz, hv, if_pos rfl]

theorem dau_small_fail {payload url fid : Str} {artifact : List Nat} {o : Oracle}
    (h : parseSel payload = some (url, fid)) (hd : o.downloadOk = true)
    (hsz : ¬ artifact.length > TELEGRAM_FILE_LIMIT) (hv : o.videoOk = false) :
    download_and_upload payload artifact o =
      ⟨[Event.answer, Event.editMsg downloadingMsg,
        Event.download (output_file url fid),
        Event.editMsg failMsg],
       Outcome.handled, true⟩ := by
  unfold download_and_upload
  rw [h]
  dsimp only
  rw [hd, if_pos rfl, if_neg hsz, hv, if_neg (by simp)]

theorem dau_large_ok {payload url fid : Str} {artifact : List Nat} {o : Oracle}
    (h : parseSel payload = some (url, fid)) (hd : o.downloadOk = true)
    (hsz : artifact.length > TELEGRAM_FILE_LIMIT)
    (hr : (split_and_upload (output_file url fid) o.docOk artifact).2 = true) :
    download_and_upload payload artifact o =
      ⟨[Event.answer, Event.editMsg downloadingMsg,
        Event.download (output_file url fid), Event.editMsg splittingMsg]
        ++ (split_and_upload (output_file url fid) o.docOk artifact).1
        ++ [Event.removeF (output_file url fid)],
       Outcome.ok, true⟩ := by
  unfold download_and_upload
  rw [h]
  dsimp only
  rw [hd, if_pos rfl, if_pos hsz, hr, if_pos rfl]

theorem dau_large_fail {payload url fid : Str} {artifact : List Nat} {o : Oracle}
    (h : parseSel payload = some (url, fid)) (hd : o.downloadOk = true)
    (hsz : artifact.length > TELEGRAM_FILE_LIMIT)
    (hr : (split_and_upload (output_file url fid) o.docOk artifact).2 = false) :
    download_and_upload payload artifact o =
      ⟨[Event.answer, Event.editMsg downloadingMsg,
        Event.download (output_file url fid), Event.editMsg splittingMsg]
        ++ (split_and_upload (output_file url fid) o.docOk artifact).1
        ++ [Event.editMsg failMsg],
       Outcome.handled, true⟩ := by
  unfold download_and_upload
  rw [h]
  dsimp only
  rw [hd, if_pos rfl, if_pos hsz, hr, if_neg (by simp)]

/-! ### Claim theorems -/

/-- C1 (counterexample): the claim "no artifact file and no ChunkPart
file created by that operation remains on local storage when the
operation returns" fails on the failure exit path: for payload `"u|f"`
with a 1-byte artifact and a transport whose video send fails, the
handler returns (outcome `handled`, the user got the failure message)
with the artifact file `u_f.mp4` still on local storage, because
`os.remove(output_file)` is inside the `try` and is skipped when the
upload raises. -/
theorem C1_counterexample :
    (download_and_upload "u|f".toList [0] ⟨true, false, fun _ => true⟩).outcome
        = Outcome.handled ∧
    filesAfter (download_and_upload "u|f".toList [0] ⟨true, false, fun _ => true⟩).events
        = ["u_f.mp4".toList] ∧
    filesAfter (download_and_upload "u|f".toList [0] ⟨true, false, fun _ => true⟩).events
        ≠ [] := by
  refine ⟨by decide, by decide, by decide⟩

/-- C1 (amended): cleanup holds on the successful exit paths only: when
a delivery operation returns normally (single or chunked delivery, all
sends succeeded), no artifact or chunk file created by it remains on
local storage.  On a failure during download, read, write, or send, the
artifact file (and, if the failure hit a chunk send, that chunk file)
remains behind. -/
theorem C1_cleanup_on_success (payload : Str) (artifact : List Nat) (o : Oracle)
    (h : (download_and_upload payload artifact o).outcome = Outcome.ok) :
    filesAfter (download_and_upload payload artifact o).events = [] := by
  rcases hp : parseSel payload with _ | ⟨url, fid⟩
  · rw [dau_malformed hp] at h
    simp at h
  · cases hd : o.downloadOk
    · rw [dau_no_download hp hd] at h
      simp at h
    · by_cases hsz : artifact.length > TELEGRAM_FILE_LIMIT
      · cases hr : (split_and_upload (output_file url fid) o.docOk artifact).2
        · rw [dau_large_fail hp hd hsz hr] at h
          simp at h
        · rw [dau_large_ok hp hd hsz hr]
          show filesAfter _ = []
          unfold filesAfter
          rw [List.foldl_append, List.foldl_append]
          have h4 : List.foldl applyEvent []
              [Event.answer, Event.editMsg downloadingMsg,
               Event.download (output_file url fid), Event.editMsg splittingMsg]
              = [output_file url fid] := rfl
          rw [h4]
          unfold split_and_upload at hr ⊢
          rw [splitGo_of_ok (output_file url fid) (readChunks artifact) 1 hr]
          simp [applyEvent]
      · cases hv : o.videoOk
        · rw [dau_small_fail hp hd hsz hv] at h
          simp at h
        · rw [dau_small_ok hp hd hsz hv]
          show filesAfter _ = []
          unfold filesAfter
          simp [applyEvent]

/-- C1 (witness): a concrete successful single delivery, with all files
cleaned up. -/
theorem C1_cleanup_on_success_witness :
    (download_and_upload "u|f".toList [0] ⟨true, true, fun _ => true⟩).outcome
        = Outcome.ok ∧
    filesAfter (download_and_upload "u|f".toList [0] ⟨true, true, fun _ => true⟩).events
        = [] :=
  ⟨by decide, C1_cleanup_on_success "u|f".toList [0] ⟨true, true, fun _ => true⟩ (by decide)⟩

/-- C2: for an artifact of `S` bytes and ceiling `C = 2*1024^3`: when
`S > C` the read loop produces exactly `ceil(S / C)` chunks, each of
size exactly `C` except possibly the last, which is smaller but never
zero-length, and their concatenation in order is the original byte
sequence; when `S ≤ C` the handler produces no chunk at all (no part
file is ever written). -/
theorem C2_chunking (bs : List Nat) :
    (bs.length > TELEGRAM_FILE_LIMIT →
      (readChunks bs).length
          = (bs.length + TELEGRAM_FILE_LIMIT - 1) / TELEGRAM_FILE_LIMIT ∧
      (readChunks bs).flatten = bs ∧
      (∀ ch ∈ (readChunks bs).dropLast, ch.length = TELEGRAM_FILE_LIMIT) ∧
      (∀ ch ∈ readChunks bs, 0 < ch.length ∧ ch.length ≤ TELEGRAM_FILE_LIMIT)) ∧
    (∀ (payload : Str) (o : Oracle), bs.length ≤ TELEGRAM_FILE_LIMIT →
      ∀ f, Event.writeF f ∉ (download_and_upload payload bs o).events) := by
  constructor
  · intro _
    exact ⟨length_readChunks bs, flatten_readChunks bs,
      fun ch hch => dropLast_readChunks hch, fun ch hch => mem_readChunks hch⟩
  · intro payload o hle f
    have hsz : ¬ bs.length > TELEGRAM_FILE_LIMIT := by omega
    rcases hp : parseSel payload with _ | ⟨url, fid⟩
    · rw [dau_malformed hp]; simp
    · cases hd : o.downloadOk
      · rw [dau_no_download hp hd]; simp
      · cases hv : o.videoOk
        · rw [dau_small_fail hp hd hsz hv]; simp
        · rw [dau_small_ok hp hd hsz hv]; simp

/-- C2 (witness): a concrete oversized artifact for the chunking part, and
a concrete small delivery for the no-chunk part. -/
theorem C2_chunking_witness :
    (List.replicate (TELEGRAM_FILE_LIMIT + 1) 0).length > TELEGRAM_FILE_LIMIT ∧
    (readChunks (List.replicate (TELEGRAM_FILE_LIMIT + 1) 0)).flatten
        = List.replicate (TELEGRAM_FILE_LIMIT + 1) 0 ∧
    Event.writeF [] ∉
      (download_and_upload "u|f".toList [0] ⟨true, true, fun _ => true⟩).events := by
  refine ⟨?_, ?_, ?_⟩
  · rw [List.length_replicate]; omega
  · exact ((C2_chunking (List.replicate (TELEGRAM_FILE_LIMIT + 1) 0)).1
      (by rw [List.length_replicate]; omega)).2.1
  · exact (C2_chunking [0]).2 "u|f".toList ⟨true, true, fun _ => true⟩ (by decide) []

/-- C3 (counterexample): the claim quantifies over every encoding
identifier, but an identifier containing the delimiter breaks the round
trip: encoding URL `"u"` with identifier `"a|b"` yields payload
`"u|a|b"`, which splits into three fields, so the tuple unpacking
`url, format_id = query.data.split("|")` fails and decoding does not
reproduce `("u", "a|b")`. -/
theorem C3_counterexample :
    parseSel (encodeToken ['u'] ['a', '|', 'b']) = none ∧
    parseSel (encodeToken ['u'] ['a', '|', 'b']) ≠ some (['u'], ['a', '|', 'b']) :=
  ⟨by decide, by decide⟩

/-- C3 (amended): the round trip `decode (encode url id) = (url, id)`
holds for every URL *and identifier* not containing the delimiter
character `|`. -/
theorem C3_roundtrip (url fid : Str) (hu : '|' ∉ url) (hf : '|' ∉ fid) :
    parseSel (encodeToken url fid) = some (url, fid) :=
  parseSel_encodeToken hu hf

/-- C3 (witness): a concrete delimiter-free round trip. -/
theorem C3_roundtrip_witness :
    parseSel (encodeToken "u".toList "137".toList) = some ("u".toList, "137".toList) :=
  C3_roundtrip "u".toList "137".toList (by decide) (by decide)

/-- C4 (counterexample): for the delimiter-free payload `"abc"` the
claim promises a user-visible failure message; in fact the handler
raises an uncaught `ValueError` at the unpacking (which happens before
the `try` block): the only action taken is answering the callback — no
message of any kind is sent (and no retrieval is attempted). -/
theorem C4_counterexample :
    (download_and_upload "abc".toList [] ⟨true, true, fun _ => true⟩).events
        = [Event.answer] ∧
    ((download_and_upload "abc".toList [] ⟨true, true, fun _ => true⟩).events.any
        isEditMsg) = false ∧
    (download_and_upload "abc".toList [] ⟨true, true, fun _ => true⟩).attempted
        = false :=
  ⟨by decide, by decide, by decide⟩

/-- C4 (amended): an inbound payload that does not split on the
delimiter into exactly two fields makes the handler fail with an
uncaught error: no retrieval is attempted, but no user-visible failure
message is surfaced either (the trace is just the callback
acknowledgement).  A payload that does split into exactly two fields —
even empty ones — proceeds to retrieval. -/
theorem C4_malformed (payload : Str) (artifact : List Nat) (o : Oracle) :
    (parseSel payload = none →
      (download_and_upload payload artifact o).events = [Event.answer] ∧
      (download_and_upload payload artifact o).outcome = Outcome.uncaught ∧
      (download_and_upload payload artifact o).attempted = false) ∧
    (∀ r : Str × Str, parseSel payload = some r →
      (download_and_upload payload artifact o).attempted = true) := by
  constructor
  · intro hp
    rw [dau_malformed hp]
    exact ⟨rfl, rfl, rfl⟩
  · rintro ⟨url, fid⟩ hp
    cases hd : o.downloadOk
    · rw [dau_no_download hp hd]
    · by_cases hsz : artifact.length > TELEGRAM_FILE_LIMIT
      · cases hr : (split_and_upload (output_file url fid) o.docOk artifact).2
        · rw [dau_large_fail hp hd hsz hr]
        · rw [dau_large_ok hp hd hsz hr]
      · cases hv : o.videoOk
        · rw [dau_small_fail hp hd hsz hv]
        · rw [dau_small_ok hp hd hsz hv]

/-- C4 (witness): concrete instances of both halves: the delimiter-free
payload `"abc"`, and the two-empty-fields payload `"|"` which proceeds
to retrieval. -/
theorem C4_malformed_witness :
    ((download_and_upload "abc".toList [] ⟨true, true, fun _ => true⟩).events
        = [Event.answer] ∧
     (download_and_upload "abc".toList [] ⟨true, true, fun _ => true⟩).outcome
        = Outcome.uncaught ∧
     (download_and_upload "abc".toList [] ⟨true, true, fun _ => true⟩).attempted
        = false) ∧
    (download_and_upload "|".toList [] ⟨true, true, fun _ => true⟩).attempted
        = true :=
  ⟨(C4_malformed "abc".toList [] ⟨true, true, fun _ => true⟩).1 (by decide),
   (C4_malformed "|".toList [] ⟨true, true, fun _ => true⟩).2 ([], []) (by decide)⟩

/-- C5: the catalog builder retains exactly those encodings whose
declared size is ≤ 2 GiB or whose size is unreported: every candidate of
a produced catalog comes from a retained format whose reported size
(when present) is within the ceiling, every size-passing format with the
required fields appears in the catalog, and the size filter accepts a
format iff its size is unreported or ≤ the ceiling. -/
theorem C5_size_filter (fs : List RawFormat) (cat : List Candidate)
    (h : buildCatalog fs = some cat) :
    (∀ c ∈ cat, ∃ f, f ∈ fs ∧ sizeOk f = true ∧ buildCandidate f = some c ∧
        ∀ s, f.filesize = some s → s ≤ TELEGRAM_FILE_LIMIT) ∧
    (∀ f ∈ fs, sizeOk f = true → ∀ c, buildCandidate f = some c → c ∈ cat) ∧
    (∀ f : RawFormat, sizeOk f = true ↔
        (f.filesize = none ∨ ∃ s, f.filesize = some s ∧ s ≤ TELEGRAM_FILE_LIMIT)) := by
  refine ⟨?_, buildCatalog_complete h, ?_⟩
  · intro c hc
    rcases buildCatalog_sound h c hc with ⟨f, hf, hsz, hbc⟩
    refine ⟨f, hf, hsz, hbc, ?_⟩
    intro s hs
    unfold sizeOk at hsz
    rw [hs] at hsz
    simpa using hsz
  · intro f
    unfold sizeOk
    rcases hfs : f.filesize with _ | s
    · simp
    · simp

/-- C5 (witness): a concrete one-format catalog whose candidate is
retained. -/
theorem C5_size_filter_witness :
    (⟨['f'], "720p".toList, "mp4".toList⟩ : Candidate)
      ∈ [(⟨['f'], "720p".toList, "mp4".toList⟩ : Candidate)] :=
  (C5_size_filter [⟨some ['f'], some 720, some "mp4".toList, some 100⟩]
      [⟨['f'], "720p".toList, "mp4".toList⟩] (by decide)).2.1
    ⟨some ['f'], some 720, some "mp4".toList, some 100⟩
    (List.mem_singleton.mpr rfl) (by decide)
    ⟨['f'], "720p".toList, "mp4".toList⟩ (by decide)

/-- C6: within one chunked delivery operation, when every document send
succeeds the trace is exactly, for `N = 1, 2, ...` in order: write part
`N`, deliver it as a document labeled `"Part N of the video"`, remove
part `N` — so chunk `N` is fully written, delivered and removed before
chunk `N+1` is produced; and for every oracle (failures included), every
intermediate storage state holds at most one ChunkPart file. -/
theorem C6_sequential_chunks (fp : Str) (docOk : Nat → Bool) (bs : List Nat) :
    ((∀ m, docOk m = true) →
      (split_and_upload fp docOk bs).1
          = ((List.range (readChunks bs).length).map
              (fun i => tripleEvents fp (1 + i))).flatten ∧
      (split_and_upload fp docOk bs).2 = true) ∧
    (∀ s ∈ allStates [fp] (split_and_upload fp docOk bs).1,
      countOther fp s ≤ 1) := by
  constructor
  · intro hall
    have h := splitGo_all_ok hall fp (readChunks bs) 1
    unfold split_and_upload
    rw [h]
    exact ⟨rfl, rfl⟩
  · intro s hs
    unfold split_and_upload at hs
    exact splitGo_states fp (readChunks bs) 1 s hs

/-- C6 (witness): a concrete all-sends-succeed chunked delivery. -/
theorem C6_sequential_chunks_witness :
    (split_and_upload ['a'] (fun _ => true) [0]).2 = true :=
  ((C6_sequential_chunks ['a'] (fun _ => true) [0]).1 (fun _ => rfl)).2

/-- C7: after a successful download, an artifact within the ceiling is
delivered as a single media message and then removed; an artifact over
the ceiling triggers the "splitting" notification strictly before any
chunk event (every `writeF` in the trace is preceded by the
notification). -/
theorem C7_delivery_dispatch (payload url fid : Str) (artifact : List Nat)
    (o : Oracle) (hp : parseSel payload = some (url, fid))
    (hd : o.downloadOk = true) :
    (artifact.length ≤ TELEGRAM_FILE_LIMIT → o.videoOk = true →
      (download_and_upload payload artifact o).events =
        [Event.answer, Event.editMsg downloadingMsg,
         Event.download (output_file url fid),
         Event.sendVideo (output_file url fid) videoCaption,
         Event.removeF (output_file url fid)]) ∧
    (artifact.length > TELEGRAM_FILE_LIMIT →
      (∃ rest, (download_and_upload payload artifact o).events =
        [Event.answer, Event.editMsg downloadingMsg,
         Event.download (output_file url fid), Event.editMsg splittingMsg]
          ++ rest) ∧
      (∀ i f, (download_and_upload payload artifact o).events.get? i
            = some (Event.writeF f) →
        ∃ j, j < i ∧ (download_and_upload payload artifact o).events.get? j
            = some (Event.editMsg splittingMsg))) := by
  constructor
  · intro hle hv
    have hsz : ¬ artifact.length > TELEGRAM_FILE_LIMIT := by omega
    rw [dau_small_ok hp hd hsz hv]
  · intro hsz
    have hev : ∃ rest, (download_and_upload payload artifact o).events =
        [Event.answer, Event.editMsg downloadingMsg,
         Event.download (output_file url fid), Event.editMsg splittingMsg]
          ++ rest := by
      cases hr : (split_and_upload (output_file url fid) o.docOk artifact).2
      · refine ⟨(split_and_upload (output_file url fid) o.docOk artifact).1
          ++ [Event.editMsg failMsg], ?_⟩
        rw [dau_large_fail hp hd hsz hr]
        dsimp only
        rw [List.append_assoc]
      · refine ⟨(split_and_upload (output_file url fid) o.docOk artifact).1
          ++ [Event.removeF (output_file url fid)], ?_⟩
        rw [dau_large_ok hp hd hsz hr]
        dsimp only
        rw [List.append_assoc]
    rcases hev with ⟨rest, hev⟩
    refine ⟨⟨rest, hev⟩, ?_⟩
    intro i f hif
    refine ⟨3, ?_, ?_⟩
    · by_contra hlt
      push_neg at hlt
      rw [hev, List.get?_append
        (by simp only [List.length_cons, List.length_nil]; omega)] at hif
      interval_cases i <;> simp at hif
    · rw [hev, List.get?_append (by simp)]
      rfl

/-- C7 (witness): a concrete single delivery followed by removal. -/
theorem C7_delivery_dispatch_witness :
    (download_and_upload "u|f".toList [0] ⟨true, true, fun _ => true⟩).events =
      [Event.answer, Event.editMsg downloadingMsg,
       Event.download (output_file ['u'] ['f']),
       Event.sendVideo (output_file ['u'] ['f']) videoCaption,
       Event.removeF (output_file ['u'] ['f'])] :=
  (C7_delivery_dispatch "u|f".toList ['u'] ['f'] [0] ⟨true, true, fun _ => true⟩
    (by decide) rfl).1 (by decide) rfl

/-- C8: whenever the resolution engine cannot enumerate formats (it
raised, or the filtered list is empty — the causes are not
distinguished), the user gets the "could not fetch formats" message and
no interactive choice prompt is sent. -/
theorem C8_no_formats (url : Str) (res : Option (List RawFormat))
    (h : fetch_formats res = none ∨ fetch_formats res = some []) :
    handle_url url res = [OutMsg.text fetchingMsg, OutMsg.text couldNotFetchMsg] ∧
    ∀ m ∈ handle_url url res, isChoiceMsg m = false := by
  have he := @handle_url_no_formats url res h
  refine ⟨he, ?_⟩
  intro m hm
  rw [he] at hm
  rcases List.mem_cons.mp hm with hm | hm
  · subst hm; rfl
  · rcases List.mem_cons.mp hm with hm | hm
    · subst hm; rfl
    · simp at hm

/-- C8 (witness): the engine enumerating an empty format list. -/
theorem C8_no_formats_witness :
    handle_url ['u'] (some []) = [OutMsg.text fetchingMsg, OutMsg.text couldNotFetchMsg] :=
  (C8_no_formats ['u'] (some []) (Or.inr rfl)).1

/-- C9: the derived working filename is the substring of the URL after
its last `=` (the whole URL when it has none), then `_`, the encoding
identifier, and the fixed extension `.mp4` — regardless of the chosen
encoding's container. -/
theorem C9_filename (url fid : Str) :
    output_file url fid = afterLastEq url ++ '_' :: fid ++ ".mp4".toList ∧
    ('=' ∉ url → output_file url fid = url ++ '_' :: fid ++ ".mp4".toList) := by
  refine ⟨output_file_eq_afterLastEq url fid, fun h => ?_⟩
  rw [output_file_eq_afterLastEq url fid, afterLastEq_of_not_mem h]

/-- C9 (witness): a concrete URL without `=`. -/
theorem C9_filename_witness :
    output_file "abc".toList ['f'] = "abc".toList ++ '_' :: ['f'] ++ ".mp4".toList :=
  (C9_filename "abc".toList ['f']).2 (by decide)

/-- C10 (counterexample): the claim says any entry lacking an identifier
or extension fails the whole catalog; but an entry that is rejected by
the size filter is never indexed, so a list with an oversized
field-less entry plus one good entry builds successfully. -/
theorem C10_counterexample :
    buildCatalog [⟨none, none, none, some (TELEGRAM_FILE_LIMIT + 1)⟩,
        ⟨some ['f'], some 720, some "mp4".toList, some 100⟩]
      = some [⟨['f'], "720p".toList, "mp4".toList⟩] ∧
    buildCatalog [⟨none, none, none, some (TELEGRAM_FILE_LIMIT + 1)⟩,
        ⟨some ['f'], some 720, some "mp4".toList, some 100⟩] ≠ none :=
  ⟨by decide, by decide⟩

/-- C10 (amended): if any entry *retained by the size filter* (declared
size ≤ 2 GiB or unreported) lacks the identifier or the extension field,
catalog building fails for the entire URL with the failure result
`none`, indistinguishable from the engine enumerating nothing. -/
theorem C10_missing_fields (fs : List RawFormat) (f : RawFormat) (hf : f ∈ fs)
    (hsz : sizeOk f = true) (hm : f.format_id = none ∨ f.ext = none) :
    buildCatalog fs = none :=
  buildCatalog_none_of_missing hf hsz hm

/-- C10 (witness): a size-passing entry with no identifier. -/
theorem C10_missing_fields_witness :
    buildCatalog [⟨none, some 720, some "mp4".toList, some 100⟩] = none :=
  C10_missing_fields [⟨none, some 720, some "mp4".toList, some 100⟩]
    ⟨none, some 720, some "mp4".toList, some 100⟩
    (List.mem_singleton.mpr rfl) (by decide) (Or.inl rfl)
